import Mathlib

/-!
Verification of the terminal session recorder of the archivist/ohsh CLI
(`pkg/record/recorder.go`, current revision) and of the Markdown
formatter (`pkg/output/markdown.go`), as a shallow embedding over byte
lists.

Bytes are modelled as `Nat` (their values stay below 256; no overflow
arises anywhere).  Go strings originating from the raw byte stream are
`List Nat`.  `strings.TrimSpace` and `strings.ToLower` are modelled by
their ASCII fast paths, which is exact on ASCII byte streams (every
byte below 0x80); multi-byte Unicode white space is outside the model.
-/

namespace Archivist

/-- ASCII bytes of a Lean string literal; used to write concrete inputs. -/
def asciiBytes (s : String) : List Nat := s.data.map Char.toNat

/-- Go's `asciiSpace` class: the bytes `strings.TrimSpace` strips on its
ASCII fast path — tab, LF, VT, FF, CR and space. -/
def isSpace (b : Nat) : Bool :=
  b == 9 || b == 10 || b == 11 || b == 12 || b == 13 || b == 32

/-- `strings.TrimSpace` on an ASCII byte string: drop white space from the
front, then from the back. -/
def trimSpace (s : List Nat) : List Nat :=
  (s.dropWhile isSpace).rdropWhile isSpace

/-- `trimSpace` is idempotent, as Go's `strings.TrimSpace` is. -/
theorem trimSpace_idem (s : List Nat) : trimSpace (trimSpace s) = trimSpace s := by
  unfold trimSpace
  have h1 : ((s.dropWhile isSpace).rdropWhile isSpace).dropWhile isSpace
      = (s.dropWhile isSpace).rdropWhile isSpace := by
    rcases h : (s.dropWhile isSpace).rdropWhile isSpace with _ | ⟨a, t⟩
    · simp
    · rw [List.dropWhile_eq_self_iff]
      intro hl
      have hpre : (s.dropWhile isSpace).rdropWhile isSpace <+: s.dropWhile isSpace :=
        List.rdropWhile_prefix _ _
    -- the trimmed list is a prefix of the front-trimmed list, so they share a head
      rw [h] at hpre
      obtain ⟨u, hu⟩ := hpre
      have hd : s.dropWhile isSpace = a :: (t ++ u) := by
        rw [← hu]; simp
      have hne : s.dropWhile isSpace ≠ [] := by rw [hd]; simp
      have hhead := List.head_dropWhile_not isSpace s hne
      simp only [hd, List.head_cons] at hhead
      simp [List.get_cons_zero, hhead]
  rw [h1, List.rdropWhile_idempotent]

/-- A byte at which trimming stops: `trimSpace` leaves a list unchanged when
its first and last bytes are not white space. -/
theorem trimSpace_eq_self (s : List Nat)
    (h1 : ∀ hl : 0 < s.length, ¬ isSpace (s.get ⟨0, hl⟩))
    (h2 : ∀ hl : s ≠ [], ¬ isSpace (s.getLast hl)) :
    trimSpace s = s := by
  unfold trimSpace
  rw [List.dropWhile_eq_self_iff.mpr h1, List.rdropWhile_eq_self_iff.mpr h2]

/-! ## Input Interceptor (`StdinInterceptor.Read`, `pkg/record/recorder.go`) -/

/-- One `Command` record of the session (`type Command` in `recorder.go`).
The `Timestamp` field (wall-clock time) and the later, non-core `Comment`
and `Redacted` fields are outside the model; `input` and `output` are the
byte strings of `Input` and `Output`. -/
structure Command where
  input  : List Nat
  output : List Nat
deriving DecidableEq, Repr

/-- The recorder state the interceptor mutates: the manual line buffer
(`StdinInterceptor.lineBuf`), the session's appended commands
(`Session.Commands`, in order; outputs still empty — the Output Correlator
fills them), and the boundary messages actually delivered on `cmdCh`. -/
structure IState where
  lineBuf  : List Nat
  commands : List Command
  sent     : List (List Nat)
deriving DecidableEq, Repr

/-- The per-byte editing step of `StdinInterceptor.Read`: backspace or
delete (0x08 / 0x7f) pops the last buffered byte (`dropLast`, which is a
no-op on an empty buffer, exactly as the Go guard `len(s.lineBuf) > 0`),
NUL (0x00) is dropped, every other byte is appended. -/
def processByte (buf : List Nat) (b : Nat) : List Nat :=
  if b = 127 ∨ b = 8 then buf.dropLast
  else if b = 0 then buf
  else buf ++ [b]

/-- The `for i := 0; i < n; i++` editing loop over one read's bytes. -/
def processBytes (buf : List Nat) (bs : List Nat) : List Nat :=
  bs.foldl processByte buf

/-- `bytes.IndexByte`: index of the first occurrence of `b`, if any
(`-1` in Go is `none` here). -/
def indexByte (buf : List Nat) (b : Nat) : Option Nat :=
  buf.findIdx? (fun x => x == b)

/-- The terminator selection of `StdinInterceptor.Read`: the Go code
computes `idxN`/`idxR` with `bytes.IndexByte` for LF and CR and picks the
smaller present one; `none` when neither occurs. -/
def splitIdx (buf : List Nat) : Option Nat :=
  match indexByte buf 10, indexByte buf 13 with
  | none, none => none
  | none, some r => some r
  | some n, none => some n
  | some n, some r => some (if n < r then n else r)

/-- The inner `for` loop of `StdinInterceptor.Read`, with explicit fuel:
repeatedly split the line buffer at the earliest LF/CR, collecting the
candidate lines in order; returns the remaining buffer (holding no
terminator) and the candidates.  Each iteration strictly shortens the
buffer, so `buf.length` fuel always suffices (`extractLines_eq`). -/
def extractLinesAux : Nat → List Nat → List Nat × List (List Nat)
  | 0, buf => (buf, [])
  | fuel + 1, buf =>
    match splitIdx buf with
    | none => (buf, [])
    | some idx =>
      let res := extractLinesAux fuel (buf.drop (idx + 1))
      (res.1, buf.take idx :: res.2)

/-- The line-splitting loop of `StdinInterceptor.Read`. -/
def extractLines (buf : List Nat) : List Nat × List (List Nat) :=
  extractLinesAux buf.length buf

/-- One candidate line, as handled by `StdinInterceptor.Read`: trim, drop
silently if empty, otherwise the `select` (best-effort non-blocking send of
the trimmed line on `cmdCh`) followed by the append of the new `Command` to
the session.  The head of the oracle (second component) records whether the
non-blocking send found room in the channel — the `select` taking the send
case rather than `default`.  The model covers the open-channel regime; the
`<-s.closed` case fires only during shutdown and aborts the read. -/
def handleLine (st : IState × List Bool) (line : List Nat) : IState × List Bool :=
  let trimmed := trimSpace line
  if trimmed = [] then st
  else
    (⟨st.1.lineBuf,
      st.1.commands ++ [⟨trimmed, []⟩],
      if st.2.headD false then st.1.sent ++ [trimmed] else st.1.sent⟩,
     st.2.tail)

/-- One call of `StdinInterceptor.Read` in which the upstream reader
delivered the bytes `bs` (and no error): per-byte editing into `lineBuf`,
then the line-splitting loop, then one `handleLine` per completed line. -/
def readStep (st : IState × List Bool) (bs : List Nat) : IState × List Bool :=
  (extractLines (processBytes st.1.lineBuf bs)).2.foldl handleLine
    (⟨(extractLines (processBytes st.1.lineBuf bs)).1, st.1.commands, st.1.sent⟩, st.2)

/-- The flush at the end of `StdinInterceptor.Read` once the upstream read
reports `io.EOF`: a non-empty line buffer is one final candidate line, and
the buffer is cleared (`s.lineBuf = nil`) even when the candidate trims to
empty. -/
def eofFlush (st : IState × List Bool) : IState × List Bool :=
  if st.1.lineBuf = [] then st
  else
    let res := handleLine st st.1.lineBuf
    (⟨[], res.1.commands, res.1.sent⟩, res.2)

/-- A sequence of `StdinInterceptor.Read` calls. -/
def runReads (st : IState × List Bool) (reads : List (List Nat)) : IState × List Bool :=
  reads.foldl readStep st

/-- A whole recording run of the interceptor: the upstream reader delivers
`reads` chunk by chunk and then reports end-of-stream. -/
def runSession (reads : List (List Nat)) (oracle : List Bool) : IState :=
  (eofFlush (runReads (⟨[], [], []⟩, oracle) reads)).1

/-! ## Output Correlator (the output logger goroutine of `StartSession`) -/

/-- One event the correlator loop processes: a boundary message received
from `cmdCh`, or one byte read from the PTY (`ptyReader.ReadByte`). -/
inductive CEvent where
  | boundary : CEvent
  | byte : Nat → CEvent
deriving DecidableEq, Repr

/-- The correlator's loop state: the local output buffer (`outputBuf`),
`currentCmdIdx` (an `int`, `-1` before the first boundary), and
`Session.Commands[i].Output` modelled as a map from command index to output
bytes (initially all empty). -/
structure CState where
  outputBuf : List Nat
  currentCmdIdx : Int
  output : Nat → List Nat

/-- One iteration of the correlator loop.  On a boundary (`case <-cmdCh`):
if a command is active, write the buffer to its `Output` and clear the
buffer; then advance `currentCmdIdx`.  On a read byte (`default` case):
append it to the buffer only if a command is active (the byte is also
echoed to the real terminal, which the model ignores). -/
def corrStep (st : CState) : CEvent → CState
  | .boundary =>
    if 0 ≤ st.currentCmdIdx then
      ⟨[], st.currentCmdIdx + 1, Function.update st.output st.currentCmdIdx.toNat st.outputBuf⟩
    else
      ⟨st.outputBuf, st.currentCmdIdx + 1, st.output⟩
  | .byte b =>
    if 0 ≤ st.currentCmdIdx then ⟨st.outputBuf ++ [b], st.currentCmdIdx, st.output⟩ else st

/-- The loop's exit flush, identical in all three exit paths (`done`
closed, `cmdCh` closed, PTY read error including EOF): write the buffer to
the active command's `Output`, if one is active. -/
def corrFinish (st : CState) : CState :=
  if 0 ≤ st.currentCmdIdx then
    ⟨st.outputBuf, st.currentCmdIdx,
      Function.update st.output st.currentCmdIdx.toNat st.outputBuf⟩
  else st

/-- The correlator's initial state. -/
def corrInit : CState := ⟨[], -1, fun _ => []⟩

/-- A whole correlator run: process the events in order, then the exit
flush at stream end. -/
def corrRun (evs : List CEvent) : CState :=
  corrFinish (evs.foldl corrStep corrInit)

/-- The events of a sequence of boundary-delimited output segments: each
segment is announced by its boundary, then its bytes are read. -/
def segEvents (segs : List (List Nat)) : List CEvent :=
  segs.flatMap (fun s => CEvent.boundary :: s.map CEvent.byte)

/-- An output stream presented as the bytes read before the first boundary
followed by one segment of bytes after each boundary. -/
def mkEvents (pre : List Nat) (segs : List (List Nat)) : List CEvent :=
  pre.map CEvent.byte ++ segEvents segs

/-! ## The correlator's `select` (readiness and case choice) -/

/-- The three cases of the correlator's `select` statement. -/
inductive SelCase where
  | recvDone : SelCase
  | recvCmd : SelCase
  | readPty : SelCase
deriving DecidableEq, Repr

/-- Readiness of the correlator's two channel operations: `<-done` is ready
once `done` has been closed; `<-cmdCh` is ready when a boundary message is
buffered in the channel or the channel has been closed. -/
structure SelState where
  doneClosed : Bool
  cmdBuffered : Bool
  cmdClosed : Bool
deriving DecidableEq, Repr

/-- Whether the `case <-done` arm can proceed. -/
def readyDone (st : SelState) : Bool := st.doneClosed

/-- Whether the `case _, ok := <-cmdCh` arm can proceed. -/
def readyCmd (st : SelState) : Bool := st.cmdBuffered || st.cmdClosed

/-- Go's `select` with a `default` case, as in the correlator loop: any
ready communication case may be chosen (the Go runtime picks uniformly at
random among the ready ones); the `default` arm — the blocking
`ptyReader.ReadByte` — runs only when no communication case is ready. -/
def canSelect (st : SelState) : SelCase → Bool
  | .recvDone => readyDone st
  | .recvCmd => readyCmd st
  | .readPty => !readyDone st && !readyCmd st

/-! ## `StartSession` (orchestration and failure paths) -/

/-- The failure points `StartSession` passes before its recording loop:
whether stdin is a terminal (`term.IsTerminal`), whether `raw.MakeRaw`
fails, and whether `pty.Start` fails. -/
structure Env where
  isTerminal : Bool
  rawModeFails : Bool
  ptyFails : Bool
deriving DecidableEq, Repr

/-- `StartSession`'s control flow around the recording loop, returning the
session's command list.  When stdin is a terminal and `raw.MakeRaw` fails,
the function returns a fresh empty session at once; when `pty.Start` fails
it returns the still-empty `session`; otherwise the recording proceeds and
the session holds the commands the interceptor appended from the keystroke
stream `reads`. -/
def startSession (env : Env) (reads : List (List Nat)) (oracle : List Bool) :
    List Command :=
  if env.isTerminal && env.rawModeFails then []
  else if env.ptyFails then []
  else (runSession reads oracle).commands

/-! ## Markdown formatter (`ToMarkdown`, `pkg/output/markdown.go`) -/

/-- `strings.ToLower` on one byte, ASCII fast path: fold A–Z to a–z. -/
def toLowerByte (b : Nat) : Nat := if 65 ≤ b ∧ b ≤ 90 then b + 32 else b

/-- `strings.ToLower` on an ASCII byte string. -/
def toLowerBytes (s : List Nat) : List Nat := s.map toLowerByte

/-- The bytes of the string `"exit"`. -/
def exitBytes : List Nat := asciiBytes "exit"

/-- The decimal digits of `n` as ASCII bytes (`fmt.Sprintf` with `%d`). -/
def digitBytes (n : Nat) : List Nat := (Nat.toDigits 10 n).map Char.toNat

/-- The bytes `ToMarkdown` emits for one rendered command at step number
`step`: the step header, the input as an `sh`-fenced block and — when the
trimmed output is non-empty — the output as a fenced block, in the exact
`sb.WriteString` order of the source. -/
def mdCommand (step : Nat) (c : Command) : List Nat :=
  asciiBytes "### Step " ++ digitBytes step ++ [10]
    ++ asciiBytes "**Command:**\n"
    ++ asciiBytes "```sh\n"
    ++ c.input
    ++ asciiBytes "\n```"
    ++ (if trimSpace c.output = [] then []
        else asciiBytes "\n**Output:**\n" ++ asciiBytes "```" ++ c.output
          ++ asciiBytes "\n```")
    ++ asciiBytes "\n\n"

/-- `ToMarkdown`'s loop over `session.Commands`: a command whose lowercased,
trimmed input equals `"exit"` is skipped (`continue`); every other command
is rendered at the current step number, which then advances. -/
def toMarkdown (cmds : List Command) : List Nat :=
  (cmds.foldl
    (fun acc c =>
      if trimSpace (toLowerBytes c.input) = exitBytes then acc
      else (acc.1 ++ mdCommand acc.2 c, acc.2 + 1))
    ([], 1)).1

/-- Rendering a list of commands as consecutive steps starting at `start`:
the reference shape the fold of `toMarkdown` is proved equal to, after
filtering out the skipped commands. -/
def mdRender (start : Nat) : List Command → List Nat
  | [] => []
  | c :: rest => mdCommand start c ++ mdRender (start + 1) rest

/-! ## Lemmas: terminator search and the line-splitting loop -/

/-- A line terminator: LF or CR. -/
def isTerm (b : Nat) : Bool := b == 10 || b == 13

theorem indexByte_cons (a b : Nat) (l : List Nat) :
    indexByte (a :: l) b = if a == b then some 0 else (indexByte l b).map (· + 1) := by
  unfold indexByte
  rw [List.findIdx?_cons]
  by_cases h : a == b
  · simp [h]
  · simp [h, List.findIdx?_succ]

theorem splitIdx_cons (a : Nat) (l : List Nat) :
    splitIdx (a :: l) = if isTerm a then some 0 else (splitIdx l).map (· + 1) := by
  unfold splitIdx isTerm
  rw [indexByte_cons, indexByte_cons]
  by_cases h10 : a = 10
  · subst h10
    rcases hr : indexByte l 13 with _ | r <;> simp
  · by_cases h13 : a = 13
    · subst h13
      rcases hn : indexByte l 10 with _ | n <;> simp [show (13 == 10) = false by decide]
    · rw [if_neg (by simpa using h10), if_neg (by simpa using h13),
        if_neg (by simp [h10, h13])]
      rcases hn : indexByte l 10 with _ | n <;> rcases hr : indexByte l 13 with _ | r <;>
        simp
      by_cases hlt : n < r <;> simp [hlt, Nat.succ_lt_succ_iff]

/-- The split position is the earliest LF-or-CR position: the `idxN`/`idxR`
minimum computation ties by position, preferring neither terminator. -/
theorem splitIdx_eq_findIdx (buf : List Nat) :
    splitIdx buf = buf.findIdx? isTerm := by
  induction buf with
  | nil => rfl
  | cons a l ih =>
    rw [splitIdx_cons, List.findIdx?_cons]
    by_cases h : isTerm a
    · simp [h]
    · simp [h, ih, List.findIdx?_succ]

theorem splitIdx_eq_none_iff (buf : List Nat) :
    splitIdx buf = none ↔ ∀ b ∈ buf, isTerm b = false := by
  rw [splitIdx_eq_findIdx]; exact List.findIdx?_eq_none_iff

theorem splitIdx_lt_length {buf : List Nat} {idx : Nat} (h : splitIdx buf = some idx) :
    idx < buf.length := by
  induction buf generalizing idx with
  | nil => simp [splitIdx, indexByte] at h
  | cons a l ih =>
    rw [splitIdx_cons] at h
    by_cases ha : isTerm a
    · simp [ha] at h
      simp [List.length_cons]
      omega
    · simp [ha] at h
      obtain ⟨j, hj, rfl⟩ := h
      have := ih hj
      simp
      omega

theorem splitIdx_append_some {x : List Nat} {idx : Nat} (y : List Nat)
    (h : splitIdx x = some idx) : splitIdx (x ++ y) = some idx := by
  induction x generalizing idx with
  | nil => simp [splitIdx, indexByte] at h
  | cons a l ih =>
    rw [splitIdx_cons] at h
    rw [List.cons_append, splitIdx_cons]
    by_cases ha : isTerm a
    · simpa [ha] using h
    · simp [ha] at h ⊢
      obtain ⟨j, hj, rfl⟩ := h
      exact ⟨j, ih hj, rfl⟩

/-- The first split of a stream that starts with a terminator-free line
followed by a terminator: the split lands exactly on the terminator. -/
theorem splitIdx_line (l : List Nat) (t : Nat) (rest : List Nat)
    (hl : ∀ b ∈ l, isTerm b = false) (ht : isTerm t = true) :
    splitIdx (l ++ t :: rest) = some l.length := by
  induction l with
  | nil => simp [splitIdx_cons, ht]
  | cons a l' ih =>
    rw [List.cons_append, splitIdx_cons]
    have ha : isTerm a = false := hl a (by simp)
    rw [if_neg (by simp [ha])]
    rw [ih (fun b hb => hl b (by simp [hb]))]
    simp

theorem extractLinesAux_congr :
    ∀ (f1 f2 : Nat) (buf : List Nat), buf.length ≤ f1 → buf.length ≤ f2 →
      extractLinesAux f1 buf = extractLinesAux f2 buf := by
  intro f1
  induction f1 with
  | zero =>
    intro f2 buf h1 _
    have : buf = [] := List.eq_nil_of_length_eq_zero (Nat.le_zero.mp h1)
    subst this
    cases f2 <;> rfl
  | succ f1 ih =>
    intro f2 buf h1 h2
    cases f2 with
    | zero =>
      have : buf = [] := List.eq_nil_of_length_eq_zero (Nat.le_zero.mp h2)
      subst this
      rfl
    | succ f2 =>
      cases h : splitIdx buf with
      | none => simp only [extractLinesAux, h]
      | some idx =>
        have hd : (buf.drop (idx + 1)).length ≤ f1 := by
          simp [List.length_drop]; omega
        have hd2 : (buf.drop (idx + 1)).length ≤ f2 := by
          simp [List.length_drop]; omega
        simp only [extractLinesAux, h]
        rw [ih f2 _ hd hd2]

theorem extractLines_eq_none {buf : List Nat} (h : splitIdx buf = none) :
    extractLines buf = (buf, []) := by
  unfold extractLines
  cases hl : buf.length with
  | zero => rfl
  | succ m => simp only [extractLinesAux, h]

theorem extractLines_eq_some {buf : List Nat} {idx : Nat} (h : splitIdx buf = some idx) :
    extractLines buf =
      ((extractLines (buf.drop (idx + 1))).1,
       buf.take idx :: (extractLines (buf.drop (idx + 1))).2) := by
  have hne : buf ≠ [] := by
    intro hb
    subst hb
    simp [splitIdx, indexByte] at h
  obtain ⟨m, hm⟩ : ∃ m, buf.length = m + 1 :=
    ⟨buf.length - 1, by have := List.length_pos.mpr hne; omega⟩
  unfold extractLines
  rw [hm]
  simp only [extractLinesAux, h]
  rw [extractLinesAux_congr m ((buf.drop (idx + 1)).length) _
    (by simp [List.length_drop]; omega) le_rfl]

/-- No terminator remains in the buffer the splitting loop leaves behind. -/
theorem splitIdx_extract : ∀ (n : Nat) (buf : List Nat), buf.length ≤ n →
    splitIdx (extractLines buf).1 = none := by
  intro n
  induction n with
  | zero =>
    intro buf h
    have : buf = [] := List.eq_nil_of_length_eq_zero (Nat.le_zero.mp h)
    subst this
    rfl
  | succ n ih =>
    intro buf h
    cases hs : splitIdx buf with
    | none => rw [extractLines_eq_none hs]; exact hs
    | some idx =>
      rw [extractLines_eq_some hs]
      exact ih _ (by simp [List.length_drop]; omega)

theorem splitIdx_extractLines (buf : List Nat) : splitIdx (extractLines buf).1 = none :=
  splitIdx_extract buf.length buf le_rfl

/-- Splitting a concatenation: first split `x`, then continue with the
leftover of `x` followed by `y`; the candidate lines concatenate. -/
theorem extractLines_append : ∀ (n : Nat) (x y : List Nat), x.length ≤ n →
    extractLines (x ++ y) =
      ((extractLines ((extractLines x).1 ++ y)).1,
       (extractLines x).2 ++ (extractLines ((extractLines x).1 ++ y)).2) := by
  intro n
  induction n with
  | zero =>
    intro x y h
    have : x = [] := List.eq_nil_of_length_eq_zero (Nat.le_zero.mp h)
    subst this
    simp [extractLines_eq_none (show splitIdx [] = none from rfl)]
  | succ n ih =>
    intro x y h
    cases hs : splitIdx x with
    | none =>
      rw [extractLines_eq_none hs]
      simp
    | some idx =>
      have hlt : idx < x.length := splitIdx_lt_length hs
      have hxy : splitIdx (x ++ y) = some idx := splitIdx_append_some y hs
      rw [extractLines_eq_some hxy, extractLines_eq_some hs]
      rw [List.drop_append_of_le_length (by omega), List.take_append_of_le_length (by omega)]
      rw [ih (x.drop (idx + 1)) y (by simp [List.length_drop]; omega)]
      simp

/-- Splitting a fully terminated stream: one candidate line per segment,
empty leftover buffer. -/
theorem extractLines_stream : ∀ ps : List (List Nat × Nat),
    (∀ p ∈ ps, (∀ b ∈ p.1, isTerm b = false) ∧ isTerm p.2 = true) →
    extractLines (ps.flatMap fun p => p.1 ++ [p.2]) = ([], ps.map Prod.fst) := by
  intro ps
  induction ps with
  | nil => intro _; rfl
  | cons p ps ih =>
    intro h
    have hp := h p (by simp)
    have hstream : (p :: ps).flatMap (fun p => p.1 ++ [p.2])
        = p.1 ++ (p.2 :: ps.flatMap fun p => p.1 ++ [p.2]) := by
      simp
    rw [hstream]
    rw [extractLines_eq_some (splitIdx_line p.1 p.2 _ hp.1 hp.2)]
    have hdrop : (p.1 ++ (p.2 :: ps.flatMap fun p => p.1 ++ [p.2])).drop (p.1.length + 1)
        = ps.flatMap fun p => p.1 ++ [p.2] := by
      rw [show p.1 ++ (p.2 :: ps.flatMap fun p => p.1 ++ [p.2])
          = (p.1 ++ [p.2]) ++ ps.flatMap (fun p => p.1 ++ [p.2]) by simp]
      rw [show p.1.length + 1 = (p.1 ++ [p.2]).length by simp]
      exact List.drop_left _ _
    have htake : (p.1 ++ (p.2 :: ps.flatMap fun p => p.1 ++ [p.2])).take p.1.length = p.1 :=
      List.take_left _ _
    rw [hdrop, htake, ih (fun q hq => h q (by simp [hq]))]
    simp

/-! ## Lemmas: byte editing and per-line handling -/

/-- With no NUL/backspace/delete among the incoming bytes, the editing
loop just appends them to the line buffer. -/
theorem processBytes_eq_append :
    ∀ (bs buf : List Nat), (∀ b ∈ bs, b ≠ 0 ∧ b ≠ 8 ∧ b ≠ 127) →
      processBytes buf bs = buf ++ bs := by
  intro bs
  induction bs with
  | nil => intro buf _; simp [processBytes]
  | cons b bs ih =>
    intro buf h
    have hb := h b (by simp)
    have hstep : processByte buf b = buf ++ [b] := by
      unfold processByte
      rw [if_neg (by omega), if_neg (by omega)]
    show processBytes (processByte buf b) bs = _
    rw [hstep, ih _ (fun x hx => h x (by simp [hx]))]
    simp

/-- The non-empty trimmed candidates among a list of candidate lines. -/
def trimFilter (ls : List (List Nat)) : List (List Nat) :=
  (ls.map trimSpace).filter (fun t => !t.isEmpty)

/-- The per-line loop leaves the line buffer alone and appends exactly the
non-empty trimmed candidates, in order, as fresh commands — independently
of the boundary-channel oracle. -/
theorem foldl_handleLine :
    ∀ (ls : List (List Nat)) (st : IState) (o : List Bool),
      (ls.foldl handleLine (st, o)).1.lineBuf = st.lineBuf
      ∧ (ls.foldl handleLine (st, o)).1.commands
          = st.commands ++ (trimFilter ls).map (fun t => ⟨t, []⟩) := by
  intro ls
  induction ls with
  | nil => intro st o; simp [trimFilter]
  | cons l ls ih =>
    intro st o
    simp only [List.foldl_cons]
    by_cases h : trimSpace l = []
    · rw [show handleLine (st, o) l = (st, o) from by unfold handleLine; simp [h]]
      rw [show trimFilter (l :: ls) = trimFilter ls from by simp [trimFilter, h]]
      exact ih st o
    · rw [show handleLine (st, o) l =
          (⟨st.lineBuf, st.commands ++ [⟨trimSpace l, []⟩],
            if o.headD false then st.sent ++ [trimSpace l] else st.sent⟩, o.tail) from by
        unfold handleLine; simp [h]]
      rw [show trimFilter (l :: ls) = trimSpace l :: trimFilter ls from by
        simp [trimFilter, List.isEmpty_iff, h]]
      obtain ⟨h1, h2⟩ := ih ⟨st.lineBuf, st.commands ++ [⟨trimSpace l, []⟩],
        if o.headD false then st.sent ++ [trimSpace l] else st.sent⟩ o.tail
      exact ⟨h1, by rw [h2]; simp⟩

/-- The per-line loop never reads the line buffer: running it from a state
whose line buffer was swapped only swaps the line buffer of the result. -/
theorem foldl_handleLine_swap :
    ∀ (ls : List (List Nat)) (x : List Nat) (st : IState) (o : List Bool),
      ls.foldl handleLine (⟨x, st.commands, st.sent⟩, o)
        = (⟨x, (ls.foldl handleLine (st, o)).1.commands,
            (ls.foldl handleLine (st, o)).1.sent⟩,
           (ls.foldl handleLine (st, o)).2) := by
  intro ls
  induction ls with
  | nil => intro x st o; rfl
  | cons l ls ih =>
    intro x st o
    simp only [List.foldl_cons]
    by_cases h : trimSpace l = []
    · rw [show handleLine (⟨x, st.commands, st.sent⟩, o) l = (⟨x, st.commands, st.sent⟩, o)
        from by unfold handleLine; simp [h]]
      rw [show handleLine (st, o) l = (st, o) from by unfold handleLine; simp [h]]
      exact ih x st o
    · rw [show handleLine (⟨x, st.commands, st.sent⟩, o) l =
          (⟨x, st.commands ++ [⟨trimSpace l, []⟩],
            if o.headD false then st.sent ++ [trimSpace l] else st.sent⟩, o.tail) from by
        unfold handleLine; simp [h]]
      rw [show handleLine (st, o) l =
          (⟨st.lineBuf, st.commands ++ [⟨trimSpace l, []⟩],
            if o.headD false then st.sent ++ [trimSpace l] else st.sent⟩, o.tail) from by
        unfold handleLine; simp [h]]
      exact ih x ⟨st.lineBuf, st.commands ++ [⟨trimSpace l, []⟩],
        if o.headD false then st.sent ++ [trimSpace l] else st.sent⟩ o.tail

/-- Two successive reads with edit-free bytes behave as one read of the
concatenated bytes. -/
theorem readStep_readStep (st : IState × List Bool) (a b : List Nat)
    (ha : ∀ x ∈ a, x ≠ 0 ∧ x ≠ 8 ∧ x ≠ 127) (hb : ∀ x ∈ b, x ≠ 0 ∧ x ≠ 8 ∧ x ≠ 127) :
    readStep (readStep st a) b = readStep st (a ++ b) := by
  have hab : ∀ x ∈ a ++ b, x ≠ 0 ∧ x ≠ 8 ∧ x ≠ 127 := by
    intro x hx
    rcases List.mem_append.mp hx with h | h
    · exact ha x h
    · exact hb x h
  simp only [readStep]
  rw [processBytes_eq_append a st.1.lineBuf ha,
    processBytes_eq_append (a ++ b) st.1.lineBuf hab]
  obtain ⟨hbuf, -⟩ := foldl_handleLine (extractLines (st.1.lineBuf ++ a)).2
    ⟨(extractLines (st.1.lineBuf ++ a)).1, st.1.commands, st.1.sent⟩ st.2
  rw [hbuf]
  rw [processBytes_eq_append b _ hb]
  rw [foldl_handleLine_swap (extractLines (st.1.lineBuf ++ a)).2
    (extractLines (st.1.lineBuf ++ a)).1 st.1 st.2]
  have hassoc : st.1.lineBuf ++ (a ++ b) = (st.1.lineBuf ++ a) ++ b := by simp
  rw [hassoc]
  rw [extractLines_append (st.1.lineBuf ++ a).length _ b le_rfl]
  dsimp only
  rw [List.foldl_append]
  rw [foldl_handleLine_swap (extractLines (st.1.lineBuf ++ a)).2
    (extractLines ((extractLines (st.1.lineBuf ++ a)).1 ++ b)).1 st.1 st.2]

/-- A read of no bytes changes nothing, provided the line buffer holds no
terminator (which it always does between reads). -/
theorem readStep_nil (st : IState × List Bool) (h : splitIdx st.1.lineBuf = none) :
    readStep st [] = st := by
  simp only [readStep]
  rw [show processBytes st.1.lineBuf [] = st.1.lineBuf from rfl]
  rw [extractLines_eq_none h]
  rfl

/-- After any read, the line buffer holds no terminator. -/
theorem splitIdx_readStep (st : IState × List Bool) (bs : List Nat) :
    splitIdx (readStep st bs).1.lineBuf = none := by
  simp only [readStep]
  obtain ⟨h1, -⟩ := foldl_handleLine (extractLines (processBytes st.1.lineBuf bs)).2
    ⟨(extractLines (processBytes st.1.lineBuf bs)).1, st.1.commands, st.1.sent⟩ st.2
  rw [h1]
  exact splitIdx_extractLines _

/-- Any chunking of an edit-free byte stream over successive reads is
equivalent to one read of the whole stream. -/
theorem runReads_flatten :
    ∀ (chunks : List (List Nat)) (st : IState × List Bool),
      (∀ b ∈ chunks.flatten, b ≠ 0 ∧ b ≠ 8 ∧ b ≠ 127) →
      splitIdx st.1.lineBuf = none →
      runReads st chunks = readStep st chunks.flatten := by
  intro chunks
  induction chunks with
  | nil => intro st _ h; exact (readStep_nil st h).symm
  | cons c rest ih =>
    intro st hfree hbuf
    have hc : ∀ b ∈ c, b ≠ 0 ∧ b ≠ 8 ∧ b ≠ 127 := by
      intro b hb; exact hfree b (by simp [hb])
    have hrest : ∀ b ∈ rest.flatten, b ≠ 0 ∧ b ≠ 8 ∧ b ≠ 127 := by
      intro b hb; exact hfree b (by simp [hb])
    show runReads (readStep st c) rest = _
    rw [ih (readStep st c) hrest (splitIdx_readStep st c)]
    rw [List.flatten_cons, ← readStep_readStep st c rest.flatten hc hrest]

/-- With boundary sends always finding room (`cmdCh` never saturated), the
per-line loop delivers exactly the non-empty trimmed candidates. -/
theorem foldl_handleLine_sent_true :
    ∀ (ls : List (List Nat)) (st : IState) (m : Nat), (trimFilter ls).length ≤ m →
      (ls.foldl handleLine (st, List.replicate m true)).1.sent = st.sent ++ trimFilter ls
      ∧ (ls.foldl handleLine (st, List.replicate m true)).2
          = List.replicate (m - (trimFilter ls).length) true := by
  intro ls
  induction ls with
  | nil => intro st m _; simp [trimFilter]
  | cons l ls ih =>
    intro st m hm
    simp only [List.foldl_cons]
    by_cases h : trimSpace l = []
    · rw [show handleLine (st, List.replicate m true) l = (st, List.replicate m true) from by
        unfold handleLine; simp [h]]
      rw [show trimFilter (l :: ls) = trimFilter ls from by simp [trimFilter, h]] at hm ⊢
      exact ih st m hm
    · have htf : trimFilter (l :: ls) = trimSpace l :: trimFilter ls := by
        simp [trimFilter, List.isEmpty_iff, h]
      rw [htf] at hm ⊢
      obtain ⟨m', rfl⟩ : ∃ m', m = m' + 1 := by
        rcases m with _ | m'
        · simp at hm
        · exact ⟨m', rfl⟩
      rw [show handleLine (st, List.replicate (m' + 1) true) l =
          (⟨st.lineBuf, st.commands ++ [⟨trimSpace l, []⟩], st.sent ++ [trimSpace l]⟩,
           List.replicate m' true) from by
        unfold handleLine; simp [h, List.replicate_succ]]
      obtain ⟨h1, h2⟩ := ih ⟨st.lineBuf, st.commands ++ [⟨trimSpace l, []⟩],
        st.sent ++ [trimSpace l]⟩ m' (by simp only [List.length_cons] at hm; omega)
      refine ⟨by rw [h1]; simp, by rw [h2]; congr 1; simp only [List.length_cons]; omega⟩

/-- Delivered boundary messages are always a sublist of the appended
command inputs: a saturated channel drops only the signal. -/
theorem handleLine_sent_sub (l : List Nat) (p : IState × List Bool)
    (h : p.1.sent.Sublist (p.1.commands.map Command.input)) :
    (handleLine p l).1.sent.Sublist ((handleLine p l).1.commands.map Command.input) := by
  unfold handleLine
  by_cases ht : trimSpace l = []
  · simpa [ht] using h
  · by_cases ho : p.2.headD false = true
    · simp only [if_neg ht, ho, if_true]
      simpa using h.append (List.Sublist.refl [trimSpace l])
    · simp only [if_neg ht, ho, if_false]
      simp only [List.map_append, List.map_cons, List.map_nil]
      exact h.trans (List.sublist_append_left _ _)

theorem foldl_handleLine_sent_sub :
    ∀ (ls : List (List Nat)) (p : IState × List Bool),
      p.1.sent.Sublist (p.1.commands.map Command.input) →
      (ls.foldl handleLine p).1.sent.Sublist ((ls.foldl handleLine p).1.commands.map Command.input) := by
  intro ls
  induction ls with
  | nil => intro p h; exact h
  | cons l ls ih =>
    intro p h
    simp only [List.foldl_cons]
    exact ih _ (handleLine_sent_sub l p h)

theorem readStep_sent_sub (p : IState × List Bool) (bs : List Nat)
    (h : p.1.sent.Sublist (p.1.commands.map Command.input)) :
    (readStep p bs).1.sent.Sublist ((readStep p bs).1.commands.map Command.input) := by
  simp only [readStep]
  exact foldl_handleLine_sent_sub _ _ h

theorem runReads_sent_sub :
    ∀ (chunks : List (List Nat)) (p : IState × List Bool),
      p.1.sent.Sublist (p.1.commands.map Command.input) →
      (runReads p chunks).1.sent.Sublist ((runReads p chunks).1.commands.map Command.input) := by
  intro chunks
  induction chunks with
  | nil => intro p h; exact h
  | cons c rest ih =>
    intro p h
    exact ih _ (readStep_sent_sub p c h)

theorem eofFlush_sent_sub (p : IState × List Bool)
    (h : p.1.sent.Sublist (p.1.commands.map Command.input)) :
    (eofFlush p).1.sent.Sublist ((eofFlush p).1.commands.map Command.input) := by
  unfold eofFlush
  by_cases hb : p.1.lineBuf = []
  · simpa [hb] using h
  · simp only [hb, if_neg (by simpa using hb)]
    exact handleLine_sent_sub _ p h

/-- The commands a run appends do not depend on the boundary-channel
oracle (only the delivered signals do). -/
theorem runReads_commands_oracle :
    ∀ (chunks : List (List Nat)) (s1 s2 : IState) (o1 o2 : List Bool),
      s1.lineBuf = s2.lineBuf → s1.commands = s2.commands →
      (runReads (s1, o1) chunks).1.lineBuf = (runReads (s2, o2) chunks).1.lineBuf
      ∧ (runReads (s1, o1) chunks).1.commands = (runReads (s2, o2) chunks).1.commands := by
  intro chunks
  induction chunks with
  | nil => intro s1 s2 o1 o2 hb hc; exact ⟨hb, hc⟩
  | cons c rest ih =>
    intro s1 s2 o1 o2 hb hc
    show (runReads (readStep (s1, o1) c) rest).1.lineBuf = _ ∧ _
    obtain ⟨hb1, hc1⟩ := foldl_handleLine (extractLines (processBytes s1.lineBuf c)).2
      ⟨(extractLines (processBytes s1.lineBuf c)).1, s1.commands, s1.sent⟩ o1
    obtain ⟨hb2, hc2⟩ := foldl_handleLine (extractLines (processBytes s2.lineBuf c)).2
      ⟨(extractLines (processBytes s2.lineBuf c)).1, s2.commands, s2.sent⟩ o2
    have e1 : (readStep (s1, o1) c).1.lineBuf = (readStep (s2, o2) c).1.lineBuf := by
      simp only [readStep]
      rw [hb1, hb2, hb]
    have e2 : (readStep (s1, o1) c).1.commands = (readStep (s2, o2) c).1.commands := by
      simp only [readStep]
      rw [hc1, hc2, hb, hc]
    have := ih (readStep (s1, o1) c).1 (readStep (s2, o2) c).1
      (readStep (s1, o1) c).2 (readStep (s2, o2) c).2 e1 e2
    exact this

theorem eofFlush_commands_oracle (s1 s2 : IState) (o1 o2 : List Bool)
    (hb : s1.lineBuf = s2.lineBuf) (hc : s1.commands = s2.commands) :
    (eofFlush (s1, o1)).1.commands = (eofFlush (s2, o2)).1.commands := by
  unfold eofFlush handleLine
  rw [← hb, ← hc]
  by_cases h : s1.lineBuf = []
  · simp [h, hc]
  · by_cases ht : trimSpace s1.lineBuf = [] <;> simp [h, ht, hc]

/-! ## Lemmas: the Output Correlator -/

/-- Reading bytes while a command is active only extends the buffer. -/
theorem foldl_corrStep_bytes_pos :
    ∀ (s : List Nat) (st : CState), 0 ≤ st.currentCmdIdx →
      (s.map CEvent.byte).foldl corrStep st
        = ⟨st.outputBuf ++ s, st.currentCmdIdx, st.output⟩ := by
  intro s
  induction s with
  | nil => intro st h; cases st; simp
  | cons b s ih =>
    intro st h
    simp only [List.map_cons, List.foldl_cons]
    rw [show corrStep st (CEvent.byte b) = ⟨st.outputBuf ++ [b], st.currentCmdIdx, st.output⟩
      from by simp only [corrStep]; rw [if_pos h]]
    rw [ih ⟨st.outputBuf ++ [b], st.currentCmdIdx, st.output⟩ h]
    simp

/-- Bytes read before the first boundary leave the state unchanged:
they are attributed to no command. -/
theorem foldl_corrStep_bytes_neg :
    ∀ (s : List Nat) (st : CState), st.currentCmdIdx < 0 →
      (s.map CEvent.byte).foldl corrStep st = st := by
  intro s
  induction s with
  | nil => intro st _; rfl
  | cons b s ih =>
    intro st h
    simp only [List.map_cons, List.foldl_cons]
    rw [show corrStep st (CEvent.byte b) = st from by
      unfold corrStep; simp [not_le.mpr h]]
    exact ih st h

/-- The engine of output attribution: running the correlator over
boundary-delimited segments from an active command `n` with buffer `buf`
flushes `buf` into slot `n` and segment `i` of the run into slot `n+1+i`,
leaving all other slots untouched. -/
theorem corrSegs_output :
    ∀ (segs : List (List Nat)) (n : Nat) (buf : List Nat) (f : Nat → List Nat) (j : Nat),
      (corrFinish ((segEvents segs).foldl corrStep ⟨buf, (n : Int), f⟩)).output j
        = if j = n then buf
          else if n < j ∧ j < n + 1 + segs.length then segs.getD (j - n - 1) []
          else f j := by
  intro segs
  induction segs with
  | nil =>
    intro n buf f j
    show (corrFinish ⟨buf, (n : Int), f⟩).output j = _
    rw [show corrFinish ⟨buf, (n : Int), f⟩
        = ⟨buf, (n : Int), Function.update f n buf⟩ from by
      unfold corrFinish
      rw [if_pos (Int.natCast_nonneg n)]
      simp [Int.toNat_natCast]]
    show Function.update f n buf j = _
    rw [Function.update_apply]
    by_cases hj : j = n
    · simp [hj]
    · rw [if_neg hj, if_neg hj, if_neg (by simp only [List.length_nil]; omega)]
  | cons s rest ih =>
    intro n buf f j
    rw [show segEvents (s :: rest)
        = CEvent.boundary :: (s.map CEvent.byte ++ segEvents rest) from by simp [segEvents]]
    simp only [List.foldl_cons, List.foldl_append]
    rw [show corrStep ⟨buf, (n : Int), f⟩ CEvent.boundary
        = ⟨[], ((n + 1 : Nat) : Int), Function.update f n buf⟩ from by
      simp only [corrStep]
      rw [if_pos (Int.natCast_nonneg n)]
      simp only [Int.toNat_natCast]
      congr 1]
    rw [foldl_corrStep_bytes_pos s ⟨[], ((n + 1 : Nat) : Int), Function.update f n buf⟩
      (Int.natCast_nonneg (n + 1))]
    dsimp only
    rw [List.nil_append]
    rw [ih (n + 1) s (Function.update f n buf) j]
    by_cases hR1 : j = n
    · rw [if_neg (by omega), if_neg (by omega), Function.update_apply, if_pos hR1,
        if_pos hR1]
    · by_cases hR2 : j = n + 1
      · rw [if_pos hR2, if_neg hR1,
          if_pos (And.intro (by omega) (by simp only [List.length_cons]; omega))]
        rw [show j - n - 1 = 0 from by omega, List.getD_cons_zero]
      · by_cases hR3 : n + 1 < j ∧ j < n + 1 + 1 + rest.length
        · rw [if_neg hR2, if_pos hR3, if_neg hR1,
            if_pos (And.intro (by omega) (by simp only [List.length_cons]; omega))]
          rw [show j - n - 1 = (j - n - 2) + 1 from by omega, List.getD_cons_succ,
            show j - (n + 1) - 1 = j - n - 2 from by omega]
        · rw [if_neg hR2, if_neg hR3, Function.update_apply, if_neg hR1, if_neg hR1,
            if_neg (by simp only [List.length_cons]; omega)]

/-- Output attribution over a whole stream: slot `j` of the final session
holds exactly the bytes of the `j`-th post-boundary segment; the bytes
before the first boundary appear nowhere. -/
theorem corrRun_output (pre : List Nat) (segs : List (List Nat)) (j : Nat) :
    (corrRun (mkEvents pre segs)).output j = segs.getD j [] := by
  unfold corrRun mkEvents
  rw [List.foldl_append]
  rw [foldl_corrStep_bytes_neg pre corrInit (by norm_num [corrInit])]
  cases segs with
  | nil =>
    show (corrFinish corrInit).output j = _
    rw [show corrFinish corrInit = corrInit from rfl]
    simp [corrInit]
  | cons s rest =>
    rw [show segEvents (s :: rest)
        = CEvent.boundary :: (s.map CEvent.byte ++ segEvents rest) from by simp [segEvents]]
    simp only [List.foldl_cons, List.foldl_append]
    rw [show corrStep corrInit CEvent.boundary
        = ⟨[], ((0 : Nat) : Int), fun _ => []⟩ from rfl]
    rw [foldl_corrStep_bytes_pos s ⟨[], ((0 : Nat) : Int), fun _ => []⟩
      (Int.natCast_nonneg 0)]
    dsimp only
    rw [List.nil_append]
    rw [corrSegs_output rest 0 s (fun _ => []) j]
    by_cases h0 : j = 0
    · rw [if_pos h0, h0, List.getD_cons_zero]
    · rw [if_neg h0]
      by_cases h1 : 0 < j ∧ j < 0 + 1 + rest.length
      · rw [if_pos h1]
        obtain ⟨k, rfl⟩ : ∃ k, j = k + 1 := ⟨j - 1, by omega⟩
        rw [List.getD_cons_succ, show k + 1 - 0 - 1 = k from by omega]
      · rw [if_neg h1, List.getD_eq_default _ _ (by simp only [List.length_cons]; omega)]

/-! ## Lemmas: the Markdown formatter -/

/-- `ToMarkdown`'s fold renders exactly the kept commands, numbered
consecutively from the running step counter. -/
theorem foldl_toMarkdown :
    ∀ (cmds : List Command) (acc : List Nat) (n : Nat),
      (cmds.foldl
        (fun acc c =>
          if trimSpace (toLowerBytes c.input) = exitBytes then acc
          else (acc.1 ++ mdCommand acc.2 c, acc.2 + 1))
        (acc, n)).1
      = acc ++ mdRender n (cmds.filter
          fun c => !(trimSpace (toLowerBytes c.input) == exitBytes)) := by
  intro cmds
  induction cmds with
  | nil => intro acc n; simp [mdRender]
  | cons c cmds ih =>
    intro acc n
    simp only [List.foldl_cons, List.filter_cons]
    by_cases h : trimSpace (toLowerBytes c.input) = exitBytes
    · rw [if_pos h, if_neg (by simp [h])]
      exact ih acc n
    · rw [if_neg h, if_pos (by simp [h])]
      rw [ih (acc ++ mdCommand n c) (n + 1)]
      simp [mdRender]

/-! ## The claims -/

/-- C2 (the claim as stated is false on the code): for the output stream
`"AAAA" | boundary | "BBBB" | boundary | "CCCC" | stream-end` with
boundaries at command indices 0 and 1, the code yields
`Command[0].Output == "BBBB"` — not `"AAAA"`, which is discarded as
pre-first-boundary output — and `Command[1].Output == "CCCC"`. -/
theorem C2_counterexample :
    (corrRun (mkEvents (asciiBytes "AAAA") [asciiBytes "BBBB", asciiBytes "CCCC"])).output 0
      ≠ asciiBytes "AAAA"
    ∧ (corrRun (mkEvents (asciiBytes "AAAA") [asciiBytes "BBBB", asciiBytes "CCCC"])).output 0
      = asciiBytes "BBBB"
    ∧ (corrRun (mkEvents (asciiBytes "AAAA") [asciiBytes "BBBB", asciiBytes "CCCC"])).output 1
      = asciiBytes "CCCC" := by
  refine ⟨by decide, by decide, by decide⟩

/-- C2 (amended): for every pre-boundary byte string and every sequence of
boundary-delimited output segments, `Command[i].Output` is exactly the
bytes read between boundary `i` and boundary `i+1` (or stream end for the
last open command), every byte read before the first boundary is attributed
to no command and discarded, and commands beyond the last boundary hold no
output. -/
theorem C2_output_attribution (pre : List Nat) (segs : List (List Nat)) (i : Nat) :
    (corrRun (mkEvents pre segs)).output i = segs.getD i [] :=
  corrRun_output pre segs i

/-- C3 (the claim as stated is false on the code): when stdin is a
terminal and switching it to raw mode fails, `StartSession` returns an
empty zero-command session at once — the very same keystroke stream that
records the command `ls` without the failure records nothing with it. -/
theorem C3_counterexample :
    startSession ⟨true, true, false⟩ [asciiBytes "ls\n"] [true] = []
    ∧ startSession ⟨true, false, false⟩ [asciiBytes "ls\n"] [true]
        = [⟨asciiBytes "ls", []⟩] := by
  refine ⟨by decide, by decide⟩

/-- C3 (amended): if switching the real terminal to raw input mode fails
when a session starts on a terminal, recording does **not** proceed: the
failure is fatal to the recording and `StartSession` returns an empty,
zero-command session immediately, exactly as for a PTY allocation
failure. -/
theorem C3_raw_mode_fatal (env : Env) (reads : List (List Nat)) (oracle : List Bool)
    (h1 : env.isTerminal = true) (h2 : env.rawModeFails = true) :
    startSession env reads oracle = [] := by
  unfold startSession
  simp [h1, h2]

theorem C3_witness :
    startSession ⟨true, true, false⟩ [asciiBytes "ls\n"] [] = [] :=
  C3_raw_mode_fatal ⟨true, true, false⟩ [asciiBytes "ls\n"] [] rfl rfl

/-- C4 (the claim as stated is false on the code): the `select` has no
strict shutdown-over-boundary priority — Go chooses uniformly at random
among ready communication cases, so with the shutdown channel closed and a
boundary message buffered the loop may legally consume the boundary first. -/
theorem C4_counterexample :
    canSelect ⟨true, true, false⟩ SelCase.recvCmd = true
    ∧ SelCase.recvCmd ≠ SelCase.recvDone := by
  refine ⟨by decide, by decide⟩

/-- C4 (amended): the correlator's `select` does prioritise both channel
cases over the PTY read: whenever a boundary or shutdown signal is
pending, the `default` read arm cannot be chosen, so a pending boundary is
consumed before any further PTY byte is read, and a pending shutdown is
never starved by a continuously producing child (the read arm is
unselectable while shutdown is pending); between the two ready channels
the choice is nondeterministic. -/
theorem C4_select_priority (st : SelState) (c : SelCase)
    (h : canSelect st c = true) :
    ((readyDone st || readyCmd st) = true → c ≠ SelCase.readPty)
    ∧ (readyDone st = true → canSelect st SelCase.readPty = false) := by
  constructor
  · intro hr hc
    subst hc
    cases hd : readyDone st <;> cases hcm : readyCmd st <;>
      simp_all [canSelect]
  · intro hd
    simp [canSelect, hd]

theorem C4_witness :
    canSelect ⟨false, true, false⟩ SelCase.recvCmd = true
    ∧ (((readyDone ⟨false, true, false⟩ || readyCmd ⟨false, true, false⟩) = true →
          SelCase.recvCmd ≠ SelCase.readPty)
       ∧ (readyDone ⟨false, true, false⟩ = true →
          canSelect ⟨false, true, false⟩ SelCase.readPty = false)) :=
  ⟨by decide, C4_select_priority ⟨false, true, false⟩ SelCase.recvCmd (by decide)⟩

/-- C8: if starting the child shell under a PTY fails, `StartSession`
returns immediately with an empty, zero-command session rather than
raising, whatever the keystroke stream would have contained. -/
theorem C8_pty_failure (env : Env) (reads : List (List Nat)) (oracle : List Bool)
    (h : env.ptyFails = true) :
    startSession env reads oracle = [] := by
  unfold startSession
  by_cases ht : env.isTerminal && env.rawModeFails
  · simp [ht]
  · simp [ht, h]

theorem C8_witness :
    startSession ⟨false, false, true⟩ [asciiBytes "ls\n"] [] = [] :=
  C8_pty_failure ⟨false, false, true⟩ [asciiBytes "ls\n"] [] rfl

/-- C9 (the claim as stated is false on the code): the formatter's skip
test lowercases and trims the input before comparing with `"exit"`, so the
command `EXIT` — whose input is not `"exit"` — still produces no step. -/
theorem C9_counterexample :
    toMarkdown [⟨asciiBytes "EXIT", asciiBytes "out"⟩] = []
    ∧ asciiBytes "EXIT" ≠ exitBytes := by
  refine ⟨by decide, by decide⟩

/-- C9 (amended): the Markdown formatter renders each command whose
whitespace-trimmed, lowercased input is not `"exit"` — and only those — as
a numbered step (consecutively from 1, in session order) built from the
input and output fenced blocks of `mdCommand`; commands whose trimmed
lowercased input equals `"exit"` produce no step. -/
theorem C9_markdown_steps (cmds : List Command) :
    toMarkdown cmds
      = mdRender 1 (cmds.filter
          fun c => !(trimSpace (toLowerBytes c.input) == exitBytes)) := by
  unfold toMarkdown
  rw [foldl_toMarkdown cmds [] 1]
  simp

/-- The commands of a whole run do not depend on the boundary-channel
oracle. -/
theorem runSession_commands_oracle (reads : List (List Nat)) (o o' : List Bool) :
    (runSession reads o).commands = (runSession reads o').commands := by
  unfold runSession
  exact eofFlush_commands_oracle _ _ _ _
    (runReads_commands_oracle reads ⟨[], [], []⟩ ⟨[], [], []⟩ o o' rfl rfl).1
    (runReads_commands_oracle reads ⟨[], [], []⟩ ⟨[], [], []⟩ o o' rfl rfl).2

/-- C5: for every keystroke stream, the commands recorded in the session
are the same whatever the boundary channel accepted — in particular with
the channel saturated throughout — and the boundary messages actually
delivered are always a sublist of the recorded command inputs: saturation
can only lose the notification, never the Command. -/
theorem C5_channel_saturation (reads : List (List Nat)) (o o' : List Bool) :
    (runSession reads o).commands = (runSession reads o').commands
    ∧ (runSession reads o).sent.Sublist ((runSession reads o).commands.map Command.input) := by
  constructor
  · exact runSession_commands_oracle reads o o'
  · unfold runSession
    exact eofFlush_sent_sub _ (runReads_sent_sub reads _ (List.nil_sublist _))

/-- C6: backspace and delete (0x08, 0x7f) pop the last byte of the line
buffer (a no-op when it is empty), NUL is dropped, every other byte is
appended; a read never removes previously appended commands; and the
input `"abc" + BS + BS + "x" + LF` yields exactly one command `"ax"`. -/
theorem C6_backspace_editing (buf : List Nat) (p : IState × List Bool) (bs : List Nat) :
    processByte buf 8 = buf.dropLast
    ∧ processByte buf 127 = buf.dropLast
    ∧ processByte buf 0 = buf
    ∧ (∀ b : Nat, b ≠ 0 → b ≠ 8 → b ≠ 127 → processByte buf b = buf ++ [b])
    ∧ (∃ tail, (readStep p bs).1.commands = p.1.commands ++ tail)
    ∧ (runSession [asciiBytes "abc" ++ [8, 8] ++ asciiBytes "x" ++ [10]] p.2).commands
        = [⟨asciiBytes "ax", []⟩] := by
  refine ⟨?_, ?_, ?_, ?_, ?_, ?_⟩
  · unfold processByte
    simp
  · unfold processByte
    simp
  · unfold processByte
    norm_num
  · intro b h0 h8 h127
    unfold processByte
    rw [if_neg (by omega), if_neg h0]
  · simp only [readStep]
    obtain ⟨-, hc⟩ := foldl_handleLine (extractLines (processBytes p.1.lineBuf bs)).2
      ⟨(extractLines (processBytes p.1.lineBuf bs)).1, p.1.commands, p.1.sent⟩ p.2
    exact ⟨_, hc⟩
  · rw [runSession_commands_oracle _ p.2 []]
    decide

theorem C6_witness :
    processByte (asciiBytes "a") 120 = asciiBytes "a" ++ [120]
    ∧ (runSession [asciiBytes "abc" ++ [8, 8] ++ asciiBytes "x" ++ [10]] []).commands
        = [⟨asciiBytes "ax", []⟩] :=
  ⟨(C6_backspace_editing (asciiBytes "a") (⟨[], [], []⟩, []) []).2.2.2.1 120
      (by decide) (by decide) (by decide),
   (C6_backspace_editing [] (⟨[], [], []⟩, []) []).2.2.2.2.2⟩

/-- C7: when the upstream stream ends while the line buffer still holds
bytes, those bytes are one final candidate line — trimmed, dropped if the
trim is empty, appended as a command otherwise — and the buffer is cleared;
in particular the unterminated input `"ls"` followed by end-of-stream
yields exactly one command `"ls"`. -/
theorem C7_eof_flush (st : IState) (o : List Bool) (h : st.lineBuf ≠ []) :
    (trimSpace st.lineBuf ≠ [] →
      (eofFlush (st, o)).1.commands = st.commands ++ [⟨trimSpace st.lineBuf, []⟩]
      ∧ (eofFlush (st, o)).1.lineBuf = [])
    ∧ (trimSpace st.lineBuf = [] →
      (eofFlush (st, o)).1.commands = st.commands
      ∧ (eofFlush (st, o)).1.lineBuf = [])
    ∧ (runSession [asciiBytes "ls"] o).commands = [⟨asciiBytes "ls", []⟩] := by
  refine ⟨?_, ?_, ?_⟩
  · intro ht
    unfold eofFlush handleLine
    simp [h, ht]
  · intro ht
    unfold eofFlush handleLine
    simp [h, ht]
  · rw [runSession_commands_oracle _ o []]
    decide

theorem C7_witness :
    (eofFlush ((⟨asciiBytes "ls", [], []⟩ : IState), [])).1.commands
        = [] ++ [⟨trimSpace (asciiBytes "ls"), []⟩]
    ∧ (eofFlush ((⟨asciiBytes "ls", [], []⟩ : IState), [])).1.lineBuf = [] :=
  (C7_eof_flush ⟨asciiBytes "ls", [], []⟩ [] (by decide)).1 (by decide)

/-- Every command a per-line handling step appends is trimmed and
non-empty. -/
theorem handleLine_trim_inv (l : List Nat) (p : IState × List Bool)
    (h : ∀ c ∈ p.1.commands, trimSpace c.input = c.input ∧ c.input ≠ []) :
    ∀ c ∈ (handleLine p l).1.commands, trimSpace c.input = c.input ∧ c.input ≠ [] := by
  unfold handleLine
  by_cases ht : trimSpace l = []
  · simpa [ht] using h
  · simp only [if_neg ht]
    intro c hc
    rcases List.mem_append.mp hc with h1 | h2
    · exact h c h1
    · have : c = ⟨trimSpace l, []⟩ := by simpa using h2
      subst this
      exact ⟨trimSpace_idem l, ht⟩

theorem foldl_handleLine_trim_inv :
    ∀ (ls : List (List Nat)) (p : IState × List Bool),
      (∀ c ∈ p.1.commands, trimSpace c.input = c.input ∧ c.input ≠ []) →
      ∀ c ∈ (ls.foldl handleLine p).1.commands, trimSpace c.input = c.input ∧ c.input ≠ [] := by
  intro ls
  induction ls with
  | nil => intro p h; exact h
  | cons l ls ih =>
    intro p h
    simp only [List.foldl_cons]
    exact ih _ (handleLine_trim_inv l p h)

theorem runReads_trim_inv :
    ∀ (chunks : List (List Nat)) (p : IState × List Bool),
      (∀ c ∈ p.1.commands, trimSpace c.input = c.input ∧ c.input ≠ []) →
      ∀ c ∈ (runReads p chunks).1.commands, trimSpace c.input = c.input ∧ c.input ≠ [] := by
  intro chunks
  induction chunks with
  | nil => intro p h; exact h
  | cons cchunk rest ih =>
    intro p h
    show ∀ c ∈ (runReads (readStep p cchunk) rest).1.commands, _
    refine ih (readStep p cchunk) ?_
    simp only [readStep]
    exact foldl_handleLine_trim_inv _ _ h

/-- C10 (invariant): in every reachable session state — any keystroke
chunking, any boundary-channel behaviour — every recorded command's input
equals its own whitespace-trimmed form and is non-empty. -/
theorem C10_inputs_trimmed_nonempty (reads : List (List Nat)) (oracle : List Bool) :
    ∀ c ∈ (runSession reads oracle).commands,
      trimSpace c.input = c.input ∧ c.input ≠ [] := by
  unfold runSession
  have hrun := runReads_trim_inv reads (⟨[], [], []⟩, oracle) (by simp)
  set p := runReads (⟨[], [], []⟩, oracle) reads with hp
  unfold eofFlush
  by_cases hb : p.1.lineBuf = []
  · simpa [hb] using hrun
  · simp only [if_neg hb]
    exact handleLine_trim_inv _ p hrun

theorem C10_witness :
    trimSpace (Command.mk (asciiBytes "ls") []).input = (Command.mk (asciiBytes "ls") []).input
    ∧ (Command.mk (asciiBytes "ls") []).input ≠ [] :=
  C10_inputs_trimmed_nonempty [asciiBytes "ls\n"] [] ⟨asciiBytes "ls", []⟩ (by decide)

/-- A whole interceptor run over a fully terminated stream, delivered in
any chunking, reduces to the per-line loop over the stream's lines. -/
theorem runSession_stream (ps : List (List Nat × Nat)) (chunks : List (List Nat))
    (o : List Bool)
    (hterm : ∀ p ∈ ps, p.2 = 10 ∨ p.2 = 13)
    (hline : ∀ p ∈ ps, ∀ b ∈ p.1, b ≠ 0 ∧ b ≠ 8 ∧ b ≠ 10 ∧ b ≠ 13 ∧ b ≠ 127)
    (hchunks : chunks.flatten = ps.flatMap fun p => p.1 ++ [p.2]) :
    runSession chunks o
      = ((ps.map Prod.fst).foldl handleLine ((⟨[], [], []⟩ : IState), o)).1 := by
  have hfree : ∀ b ∈ chunks.flatten, b ≠ 0 ∧ b ≠ 8 ∧ b ≠ 127 := by
    rw [hchunks]
    intro b hb
    obtain ⟨p, hp, hbp⟩ := List.mem_flatMap.mp hb
    rcases List.mem_append.mp hbp with h1 | h2
    · have := hline p hp b h1
      exact ⟨this.1, this.2.1, this.2.2.2.2⟩
    · have hb2 : b = p.2 := by simpa using h2
      subst hb2
      rcases hterm p hp with h | h <;> omega
  have hstream : ∀ p ∈ ps, (∀ b ∈ p.1, isTerm b = false) ∧ isTerm p.2 = true := by
    intro p hp
    constructor
    · intro b hb
      have := hline p hp b hb
      unfold isTerm
      simp only [Bool.or_eq_false_iff, beq_eq_false_iff_ne, ne_eq]
      omega
    · rcases hterm p hp with h | h <;> simp [isTerm, h]
  unfold runSession
  rw [runReads_flatten chunks (⟨[], [], []⟩, o) hfree rfl]
  rw [hchunks] at hfree ⊢
  simp only [readStep]
  rw [show processBytes ((⟨[], [], []⟩ : IState), o).1.lineBuf
        (ps.flatMap fun p => p.1 ++ [p.2])
      = [] ++ (ps.flatMap fun p => p.1 ++ [p.2]) from
    processBytes_eq_append _ _ hfree]
  rw [List.nil_append, extractLines_stream ps hstream]
  dsimp only
  obtain ⟨hb, -⟩ := foldl_handleLine (ps.map Prod.fst) ⟨[], [], []⟩ o
  unfold eofFlush
  rw [if_pos hb]

/-- C1: for every byte stream that is a concatenation of lines, each
terminated by an LF or CR byte (mixed terminators allowed), delivered to
the interceptor in any chunking, the recorder appends exactly one command
per non-empty whitespace-trimmed line, in stream order; a candidate line
that trims to empty produces no command and — even with the channel always
willing — no boundary signal; and the buffer is always split at the
earliest occurrence of LF or CR, ties broken by position. -/
theorem C1_line_segmentation (ps : List (List Nat × Nat)) (chunks : List (List Nat))
    (oracle : List Bool)
    (hterm : ∀ p ∈ ps, p.2 = 10 ∨ p.2 = 13)
    (hline : ∀ p ∈ ps, ∀ b ∈ p.1, b ≠ 0 ∧ b ≠ 8 ∧ b ≠ 10 ∧ b ≠ 13 ∧ b ≠ 127)
    (hchunks : chunks.flatten = ps.flatMap fun p => p.1 ++ [p.2]) :
    (runSession chunks oracle).commands
      = ((ps.map fun p => trimSpace p.1).filter fun t => !t.isEmpty).map
          (fun t => (⟨t, []⟩ : Command))
    ∧ (runSession chunks (List.replicate ps.length true)).sent
      = (ps.map fun p => trimSpace p.1).filter (fun t => !t.isEmpty)
    ∧ (∀ buf : List Nat, splitIdx buf = List.findIdx? isTerm buf) := by
  have hTF : trimFilter (ps.map Prod.fst)
      = (ps.map fun p => trimSpace p.1).filter fun t => !t.isEmpty := by
    unfold trimFilter
    rw [List.map_map]
    rfl
  have hlen : (trimFilter (ps.map Prod.fst)).length ≤ ps.length := by
    unfold trimFilter
    refine le_trans (List.length_filter_le _ _) ?_
    simp
  refine ⟨?_, ?_, splitIdx_eq_findIdx⟩
  · rw [runSession_stream ps chunks oracle hterm hline hchunks]
    obtain ⟨-, hc⟩ := foldl_handleLine (ps.map Prod.fst) ⟨[], [], []⟩ oracle
    rw [hc, hTF]
    simp
  · rw [runSession_stream ps chunks (List.replicate ps.length true) hterm hline hchunks]
    obtain ⟨hs, -⟩ := foldl_handleLine_sent_true (ps.map Prod.fst) ⟨[], [], []⟩
      ps.length hlen
    rw [hs, hTF]
    simp

theorem C1_witness :
    (∀ p ∈ [(asciiBytes "ls", 10), (asciiBytes " ", 13), (asciiBytes "pwd", 13)],
        p.2 = 10 ∨ p.2 = 13)
    ∧ (∀ p ∈ [(asciiBytes "ls", 10), (asciiBytes " ", 13), (asciiBytes "pwd", 13)],
        ∀ b ∈ p.1, b ≠ 0 ∧ b ≠ 8 ∧ b ≠ 10 ∧ b ≠ 13 ∧ b ≠ 127)
    ∧ ([asciiBytes "l", asciiBytes "s\n ", asciiBytes "\rpw", asciiBytes "d\r"].flatten
        = [(asciiBytes "ls", 10), (asciiBytes " ", 13), (asciiBytes "pwd", 13)].flatMap
            fun p => p.1 ++ [p.2])
    ∧ ((runSession [asciiBytes "l", asciiBytes "s\n ", asciiBytes "\rpw", asciiBytes "d\r"]
          [false, false]).commands
        = (([(asciiBytes "ls", 10), (asciiBytes " ", 13), (asciiBytes "pwd", 13)].map
              fun p => trimSpace p.1).filter fun t => !t.isEmpty).map
            (fun t => (⟨t, []⟩ : Command))
      ∧ (runSession [asciiBytes "l", asciiBytes "s\n ", asciiBytes "\rpw", asciiBytes "d\r"]
          (List.replicate
            [(asciiBytes "ls", 10), (asciiBytes " ", 13), (asciiBytes "pwd", 13)].length
            true)).sent
        = ([(asciiBytes "ls", 10), (asciiBytes " ", 13), (asciiBytes "pwd", 13)].map
            fun p => trimSpace p.1).filter (fun t => !t.isEmpty)
      ∧ (∀ buf : List Nat, splitIdx buf = List.findIdx? isTerm buf)) :=
  ⟨by decide, by decide, by decide,
   C1_line_segmentation
     [(asciiBytes "ls", 10), (asciiBytes " ", 13), (asciiBytes "pwd", 13)]
     [asciiBytes "l", asciiBytes "s\n ", asciiBytes "\rpw", asciiBytes "d\r"]
     [false, false] (by decide) (by decide) (by decide)⟩

end Archivist
